import Mathlib

/-!
Verification of the clause-alignment-and-classification core of the PDF
compliance tool (`streamlit_app.py`).

The development embeds, as executable Lean definitions:
* Python's `difflib.SequenceMatcher(None, a, b).ratio()` similarity score
  (the b2j index with autojunk pruning, the longest-match dynamic program,
  the four extension loops, the recursive matching-block decomposition and
  the `2*M/T` score), since the source calls it directly;
* `split_into_clauses` (the ordered cascade of four clause recognizers with
  the `> 3` acceptance threshold and the blank-line paragraph fallback);
* `match_clauses` (greedy one-pass alignment with threshold 0.3);
* `analyze_compliance` (conflict-indicator rules plus similarity grading).

Python floats are modelled as exact rationals; the concrete scores in the
theorems below are far from the decision thresholds, so no float-rounding
boundary is exercised.
-/

namespace PDFCompliance

/-! ### difflib SequenceMatcher (isjunk = None, autojunk = True) -/

section SeqMatcher

variable {α : Type} [DecidableEq α] [Inhabited α]

/-- Popularity test of difflib's `__chain_b` autojunk: with `len(b) >= 200`,
an element occurring more than `len(b) // 100 + 1` times is dropped from the
index. -/
def isPopular (b : List α) (x : α) : Bool :=
  decide (200 ≤ b.length) && decide (b.length / 100 + 1 < b.countP (fun y => decide (y = x)))

/-- difflib's `b2j`: the ascending list of positions of `x` in `b`, or `[]`
for a popular (autojunk) element.  With `isjunk = None` the junk set itself
stays empty; autojunk only prunes this index. -/
def b2j (b : List α) (x : α) : List Nat :=
  if isPopular b x then []
  else (List.range b.length).filter (fun j => decide (b.getD j default = x))

/-- A matching block, like difflib's `Match(a, b, size)` namedtuple. -/
structure Match where
  a : Nat
  b : Nat
  size : Nat

/-- One inner step of `find_longest_match`'s dynamic program: the body of
`for j in b2j.get(a[i], [])`, reading run lengths from the previous row
`old` (`j2len`) and writing the current row (`newj2len`). -/
def rowStep (iRow : Nat) (old : Nat → Nat) (st : (Nat → Nat) × Match) (j : Nat) :
    (Nat → Nat) × Match :=
  let k := (if j = 0 then 0 else old (j - 1)) + 1
  let newF : Nat → Nat := fun x => if x = j then k else st.1 x
  let best := if st.2.size < k then ⟨iRow + 1 - k, j + 1 - k, k⟩ else st.2
  (newF, best)

/-- One row of the dynamic program (`for i in range(alo, ahi)`).  Python
skips positions `j < blo` (`continue`) and stops at the first `j >= bhi`
(`break`); on the ascending `b2j` list this is takeWhile-then-filter. -/
def procRow (a b : List α) (blo bhi : Nat) (st : (Nat → Nat) × Match) (iRow : Nat) :
    (Nat → Nat) × Match :=
  let js := ((b2j b (a.getD iRow default)).takeWhile (fun j => decide (j < bhi))).filter
    (fun j => decide (blo ≤ j))
  js.foldl (rowStep iRow st.1) ((fun _ => 0), st.2)

/-- The dynamic-programming phase of `find_longest_match`, before the
extension loops: best starts at `(alo, blo, 0)`. -/
def dpPhase (a b : List α) (alo ahi blo bhi : Nat) : Match :=
  ((List.range' alo (ahi - alo)).foldl (procRow a b blo bhi)
    ((fun _ => 0), ⟨alo, blo, 0⟩)).2

/-- The element comparison in the extension loops: indices valid and
elements equal, with the side condition `pred` on the `b` element
(`not isbjunk(...)` resp. `isbjunk(...)` in difflib). -/
def eqCheck (a b : List α) (pred : α → Bool) (i j : Nat) : Bool :=
  match a.get? i, b.get? j with
  | some x, some y => pred y && decide (x = y)
  | _, _ => false

/-- difflib's junk predicate for `SequenceMatcher(None, ...)`: with
`isjunk = None` the `bjunk` set is empty (autojunk never adds to it). -/
def bjunk (_ : α) : Bool := false

/-- Backward extension loop of `find_longest_match`
(`while besti > alo and bestj > blo and pred(b[bestj-1]) and a[besti-1] == b[bestj-1]`),
written as structural recursion on `besti` (which the loop decrements; at
`besti = 0` the guard `besti > alo` is false anyway). -/
def extendLo (a b : List α) (alo blo : Nat) (pred : α → Bool) :
    Nat → Nat → Nat → Match
  | 0, bestj, size => ⟨0, bestj, size⟩
  | besti + 1, bestj, size =>
    if alo < besti + 1 ∧ blo < bestj ∧ eqCheck a b pred besti (bestj - 1) = true then
      extendLo a b alo blo pred besti (bestj - 1) (size + 1)
    else ⟨besti + 1, bestj, size⟩

/-- Forward extension loop of `find_longest_match`
(`while besti+size < ahi and bestj+size < bhi and pred(b[bestj+size]) and
a[besti+size] == b[bestj+size]`), returning the final size; structural
recursion on the fuel `ahi - (besti + size)`, which bounds the remaining
iterations (at fuel `0` the guard `besti + size < ahi` is false). -/
def extendHiAux (a b : List α) (ahi bhi : Nat) (pred : α → Bool) (besti bestj : Nat) :
    Nat → Nat → Nat
  | 0, size => size
  | fuel + 1, size =>
    if besti + size < ahi ∧ bestj + size < bhi ∧
        eqCheck a b pred (besti + size) (bestj + size) = true then
      extendHiAux a b ahi bhi pred besti bestj fuel (size + 1)
    else size

/-- The forward extension loop, at its exact fuel bound. -/
def extendHi (a b : List α) (ahi bhi : Nat) (pred : α → Bool)
    (besti bestj size : Nat) : Nat :=
  extendHiAux a b ahi bhi pred besti bestj (ahi - (besti + size)) size

/-- One extension phase of `find_longest_match`: the backward loop then
the forward loop, both gated on `pred` for the `b`-side element. -/
def extendPhase (a b : List α) (alo ahi blo bhi : Nat) (pred : α → Bool)
    (m : Match) : Match :=
  let m1 := extendLo a b alo blo pred m.a m.b m.size
  ⟨m1.a, m1.b, extendHi a b ahi bhi pred m1.a m1.b m1.size⟩

/-- difflib's `find_longest_match` on the window `[alo, ahi) × [blo, bhi)`:
the dynamic program followed by the non-junk extension phase and then the
junk extension phase (the latter is a no-op here since `bjunk` is
constantly false, but is kept to mirror the source). -/
def find_longest_match (a b : List α) (alo ahi blo bhi : Nat) : Match :=
  extendPhase a b alo ahi blo bhi bjunk
    (extendPhase a b alo ahi blo bhi (fun y => !bjunk y)
      (dpPhase a b alo ahi blo bhi))

/-- difflib's `get_matching_blocks` queue recursion, written as structural
recursion on a fuel bound (each recursive window is strictly smaller, so
`a.length + b.length + 1` fuel is always enough).  The terminator block and
the adjacent-block merging of difflib are omitted: they do not change the
total matched size, which is all `ratio()` reads. -/
def blocksAux (a b : List α) : Nat → Nat → Nat → Nat → Nat → List Match
  | 0, _, _, _, _ => []
  | fuel + 1, alo, ahi, blo, bhi =>
    let m := find_longest_match a b alo ahi blo bhi
    if m.size = 0 then []
    else
      (if alo < m.a ∧ blo < m.b then blocksAux a b fuel alo m.a blo m.b else []) ++
      [m] ++
      (if m.a + m.size < ahi ∧ m.b + m.size < bhi then
        blocksAux a b fuel (m.a + m.size) ahi (m.b + m.size) bhi else [])

/-- All matching blocks of the two sequences. -/
def matchingBlocks (a b : List α) : List Match :=
  blocksAux a b (a.length + b.length + 1) 0 a.length 0 b.length

/-- `SequenceMatcher(None, a, b).ratio()`: `2*M/T` with `M` the total
matched size and `T = len(a) + len(b)`, and `1.0` when `T = 0`
(`_calculate_ratio`). -/
def similarity (a b : List α) : ℚ :=
  let m : Nat := (matchingBlocks a b).foldl (fun acc bl => acc + bl.size) 0
  if a.length + b.length = 0 then 1
  else (2 * (m : ℚ)) / ((a.length : ℚ) + (b.length : ℚ))

end SeqMatcher

/-- The similarity of two clause strings, as the source computes it:
`SequenceMatcher(None, clause1, clause2).ratio()` over their characters. -/
def simStr (s1 s2 : String) : ℚ := similarity s1.data s2.data

/-! ### Clause segmenter (`split_into_clauses`)

Each of the four regex patterns has the shape
`(MARKER .*?)(?=MARKER|$)` with `re.DOTALL`: a match can always complete
(the `$` branch of the lookahead succeeds at the end of the text, or just
before a trailing newline), so `re.findall` returns the spans from each
marker occurrence up to the next marker occurrence after it or the end.
The markers themselves are deterministic maximal-munch token sequences. -/

/-- Whitespace as matched by Python's `\s` / stripped by `str.strip()`
(restricted to the whitespace code points that can occur in the inputs
considered here). -/
def pyIsSpace (c : Char) : Bool :=
  [' ', '\t', '\n', '\r', '\x0b', '\x0c', ' ', '　'].contains c

/-- `str.strip()` on a character list. -/
def stripChars (l : List Char) : List Char :=
  ((l.dropWhile pyIsSpace).reverse.dropWhile pyIsSpace).reverse

/-- `str.strip()`. -/
def strip (s : String) : String := ⟨stripChars s.data⟩

/-- The first position of `t` where `sep` occurs as a sublist. -/
def findOcc (sep t : List Char) : Option Nat :=
  (List.range (t.length + 1)).find? (fun i => decide ((t.drop i).take sep.length = sep))

/-- Python's `str.split(sep)` with a non-empty separator: split at each
leftmost non-overlapping occurrence.  The fuel is only a termination
device; each step consumes at least `sep.length ≥ 1` characters, so
`t.length + 1` fuel is always enough. -/
def pySplitAux (sep : List Char) : Nat → List Char → List (List Char)
  | 0, t => [t]
  | fuel + 1, t =>
    match findOcc sep t with
    | none => [t]
    | some i => t.take i :: pySplitAux sep fuel (t.drop (i + sep.length))

/-- `text.split(sep)` on strings. -/
def pySplit (sep : List Char) (t : String) : List String :=
  (pySplitAux sep (t.data.length + 1) t.data).map (fun cs => ⟨cs⟩)

/-- The character class `[一二三四五六七八九十]`. -/
def isCNnum (c : Char) : Bool :=
  ['一', '二', '三', '四', '五', '六', '七', '八', '九', '十'].contains c

/-- The character class `[1-9]`. -/
def isNonzeroDigit (c : Char) : Bool := '1' ≤ c && c ≤ '9'

/-- After a token of length `tok`, demand the literal character `c` and then
`\s+`, returning the total marker length `off + tok + 1 + (spaces)`. -/
def litThenSpaces (c : Char) (rest : List Char) (pre : Nat) : Option Nat :=
  match rest with
  | x :: rest2 =>
    if x = c then
      let sp := rest2.takeWhile pyIsSpace
      if sp.isEmpty then none else some (pre + 1 + sp.length)
    else none
  | [] => none

/-- Marker of pattern 1, `\d+\.\s+`: length of the marker match at the head
of the list, or `none`. -/
def markerNum (cs : List Char) : Option Nat :=
  let ds := cs.takeWhile Char.isDigit
  if ds.isEmpty then none
  else litThenSpaces '.' (cs.drop ds.length) ds.length

/-- Marker of pattern 2, `[一二三四五六七八九十]+、\s+`. -/
def markerEnumCN (cs : List Char) : Option Nat :=
  let ns := cs.takeWhile isCNnum
  if ns.isEmpty then none
  else litThenSpaces '、' (cs.drop ns.length) ns.length

/-- The `[一二三四五六七八九十]+条\s+` tail of pattern 3's marker, starting
`off` characters into the original position. -/
def articleCore (cs : List Char) (off : Nat) : Option Nat :=
  let ns := cs.takeWhile isCNnum
  if ns.isEmpty then none
  else litThenSpaces '条' (cs.drop ns.length) (off + ns.length)

/-- Marker of pattern 3, `(?:第)?[一二三四五六七八九十]+条\s+`: the optional
`第` is tried greedily first, with regex backtracking to the empty
alternative. -/
def markerArticleCN (cs : List Char) : Option Nat :=
  match cs with
  | c :: rest =>
    if c = '第' then (articleCore rest 1).orElse (fun _ => articleCore cs 0)
    else articleCore cs 0
  | [] => none

/-- Marker of pattern 4, `\([1-9]+\)\s+`. -/
def markerParenNum (cs : List Char) : Option Nat :=
  match cs with
  | c :: rest =>
    if c = '(' then
      let ds := rest.takeWhile isNonzeroDigit
      if ds.isEmpty then none
      else litThenSpaces ')' (rest.drop ds.length) (1 + ds.length)
    else none
  | [] => none

/-- Length of a marker match at position `p` of `t`. -/
def markerAt (m : List Char → Option Nat) (t : List Char) (p : Nat) : Option Nat :=
  m (t.drop p)

/-- The lookahead `(?=MARKER|$)` at position `r` (without `re.MULTILINE`,
`$` matches at the end of the text or just before a trailing newline). -/
def lookaheadOK (m : List Char → Option Nat) (t : List Char) (r : Nat) : Bool :=
  (markerAt m t r).isSome || decide (r = t.length) ||
    (decide (r + 1 = t.length) && decide (t.getD r ' ' = '\n'))

/-- The first position `p ≥ pos` where the marker matches, with the matched
length. -/
def findStart (m : List Char → Option Nat) (t : List Char) (pos : Nat) :
    Option (Nat × Nat) :=
  ((List.range' pos (t.length - pos)).find? (fun p => (markerAt m t p).isSome)).map
    (fun p => (p, (markerAt m t p).getD 0))

/-- The lazy `.*?` end: the least `r ≥ q` where the lookahead holds
(`r = t.length` always qualifies). -/
def findEnd (m : List Char → Option Nat) (t : List Char) (q : Nat) : Nat :=
  match (List.range' q (t.length + 1 - q)).find? (fun r => lookaheadOK m t r) with
  | some r => r
  | none => t.length

/-- `re.findall` for one clause pattern: scan for the next marker from
`pos`, emit the span up to the lookahead position, resume there.  The fuel
bound is only a termination device: every step advances `pos` by at least
the marker length, so `t.length + 1` fuel is always enough. -/
def findallAux (m : List Char → Option Nat) (t : List Char) :
    Nat → Nat → List (List Char)
  | 0, _ => []
  | fuel + 1, pos =>
    match findStart m t pos with
    | none => []
    | some (p, mlen) =>
      let r := findEnd m t (p + mlen)
      (t.drop p).take (r - p) :: findallAux m t fuel r

/-- `re.findall(pattern, text, re.DOTALL)` for one clause pattern. -/
def findall (m : List Char → Option Nat) (s : String) : List String :=
  (findallAux m s.data (s.data.length + 1) 0).map (fun cs => ⟨cs⟩)

/-- The four clause recognizers, in the priority order of `patterns`. -/
def recognizers : List (List Char → Option Nat) :=
  [markerNum, markerEnumCN, markerArticleCN, markerParenNum]

/-- The `for pattern in patterns` loop: the first recognizer producing more
than 3 raw matches wins, and its spans are stripped with empties dropped. -/
def tryRecognizers : List (List Char → Option Nat) → String → Option (List String)
  | [], _ => none
  | m :: ms, t =>
    let clauses := findall m t
    if 3 < clauses.length then
      some ((clauses.map strip).filter (fun c => decide (c ≠ "")))
    else tryRecognizers ms t

/-- `split_into_clauses`: the recognizer cascade, falling back to splitting
on blank lines (`text.split('\n\n')`) with empty paragraphs dropped. -/
def split_into_clauses (text : String) : List String :=
  match tryRecognizers recognizers text with
  | some cs => cs
  | none => ((pySplit ['\n', '\n'] text).map strip).filter (fun p => decide (p ≠ ""))

/-! ### Clause aligner (`match_clauses`) -/

/-- The inner loop of `match_clauses` for one clause of document 1: scan the
clauses of document 2 in order, skip used indices, and keep the first
strictly best score above the initial threshold `best_ratio = 0.3`.  The
state pairs the running score with the `(best_match, best_j)` data (Python's
separate `best_match = None` / `best_j = -1` initial values are the `none`
case). -/
def matchStep (used : List Nat) (c1 : String) (clauses2 : List String) :
    ℚ × Option (String × Nat) :=
  clauses2.enum.foldl
    (fun st jc =>
      if jc.1 ∈ used then st
      else
        let r := simStr c1 jc.2
        if st.1 < r then (r, some (jc.2, jc.1)) else st)
    (3 / 10, none)

/-- One iteration of the outer loop of `match_clauses`: commit the best
match if `best_match` is truthy (not `None` and not the empty string). -/
def commitStep (clauses2 : List String)
    (acc : List (String × String × ℚ) × List Nat) (c1 : String) :
    List (String × String × ℚ) × List Nat :=
  let best := matchStep acc.2 c1 clauses2
  match best.2 with
  | some (s, j) => if s = "" then acc else (acc.1 ++ [(c1, s, best.1)], acc.2 ++ [j])
  | none => acc

/-- `match_clauses(clauses1, clauses2)`, returning
`(matched_pairs, unmatched1, unmatched2)`.  The `unmatched1` comprehension
of the source compares clause indices of document 1 against
`[p[0] for p in [(idx, pair) for idx, pair in enumerate(matched_pairs)]]`,
i.e. against the list `0, 1, ..., len(matched_pairs) - 1`. -/
def match_clauses (clauses1 clauses2 : List String) :
    List (String × String × ℚ) × List String × List String :=
  let st := clauses1.foldl (commitStep clauses2) ([], [])
  let matched_pairs := st.1
  let used_indices := st.2
  let idxs : List Nat := matched_pairs.enum.map (fun p => p.1)
  let unmatched1 := (clauses1.enum.filter (fun p => decide (p.1 ∉ idxs))).map
    (fun p => p.2)
  let unmatched2 := (clauses2.enum.filter (fun p => decide (p.1 ∉ used_indices))).map
    (fun p => p.2)
  (matched_pairs, unmatched1, unmatched2)

/-! ### Conflict classifier (`analyze_compliance`) -/

/-- Substring occurrence test. -/
def strContains (s pat : String) : Bool :=
  (List.range (s.data.length + 1)).any
    (fun i => decide ((s.data.drop i).take pat.data.length = pat.data))

/-- `re.search(pat, s, re.IGNORECASE)` for the indicator patterns: each is
an alternation of literal strings, so it searches each alternative as a
substring.  (The patterns contain no cased characters, so `IGNORECASE` has
no effect.) -/
def reSearch (pat s : String) : Bool :=
  (pySplit ['|'] pat).any (fun alt => strContains s alt)

/-- The `conflict_indicators` pairs, as their regex source strings. -/
def conflict_indicators : List (String × String) :=
  [("不得|禁止|严禁", "可以|允许|有权"),
   ("必须|应当", "无需|不必|不应当"),
   ("小于|低于|不超过", "大于|高于|不少于"),
   ("全部|所有", "部分|个别"),
   ("有效|生效", "无效|失效")]

/-- The conflict-explanation string for a rule firing with `p1` found in
document 1 and `p2` found in document 2. -/
def conflictMsg (p1 p2 : String) : String :=
  "检测到潜在冲突: 文档1包含'" ++ p1 ++ "'相关表述，文档2包含'" ++ p2 ++ "'相关表述"

/-- The `conflicts` list accumulated by `analyze_compliance`: for each
indicator pair, both directions are tested. -/
def conflictsOf (clause1 clause2 : String) : List String :=
  conflict_indicators.foldl
    (fun acc pq =>
      let acc1 :=
        if reSearch pq.1 clause1 && reSearch pq.2 clause2 then
          acc ++ [conflictMsg pq.1 pq.2]
        else acc
      if reSearch pq.2 clause1 && reSearch pq.1 clause2 then
        acc1 ++ [conflictMsg pq.2 pq.1]
      else acc1)
    []

/-- `analyze_compliance(clause1, clause2)`: the verdict string, the
triggered explanations and the similarity score.  The grading thresholds
0.8 and 0.5 are modelled as exact rationals. -/
def analyze_compliance (clause1 clause2 : String) : String × List String × ℚ :=
  let conflicts := conflictsOf clause1 clause2
  let s := simStr clause1 clause2
  if conflicts ≠ [] then ("冲突", conflicts, s)
  else if (4 : ℚ) / 5 < s then ("一致", [], s)
  else if (1 : ℚ) / 2 < s then ("基本一致", [], s)
  else ("差异较大", [], s)

/-! ### The scenario documents of the spec's §8 -/

/-- Document A of the spec's alignment scenario. -/
def textA : String := "第一条 甲方应当支付款项。第二条 乙方不得转让合同。"

/-- Document B of the spec's alignment scenario. -/
def textB : String := "第一条 甲方必须支付款项。第二条 乙方可以转让合同。"

/-! ### The alignment bookkeeping invariant -/

/-- The invariant of the outer loop of `match_clauses`: as many used
B-indices as matched pairs, all distinct and in range. -/
def AlignInv (clauses2 : List String) (acc : List (String × String × ℚ) × List Nat) : Prop :=
  acc.1.length = acc.2.length ∧ acc.2.Nodup ∧ ∀ u ∈ acc.2, u < clauses2.length

/-! ### The spec-modelled punctuation fallback of §4.3 -/

/-- Sentence-terminating punctuation (Chinese and ASCII sentence enders),
for the spec-modelled fallback. -/
def isSentEnd (c : Char) : Bool :=
  ['。', '！', '？', '；', '.', '!', '?', ';'].contains c

/-- Split a character list at each sentence terminator (terminators are
consumed). -/
def splitPunct (l : List Char) : List (List Char) :=
  l.foldr
    (fun c acc =>
      if isSentEnd c then [] :: acc
      else
        match acc with
        | h :: t => (c :: h) :: t
        | [] => [[c]])
    [[]]

/-- Modelled from the spec: the fallback of §4.3, "fall back to splitting
on sentence-terminating punctuation and discard fragments shorter than a
minimum length".  This behaviour is absent from the code (which splits on
blank lines); the spec fixes neither the punctuation set nor the minimum,
so the terminators are the usual sentence enders and the minimum length is
a parameter. -/
def specPunctFallback (text : String) (minLen : Nat) : List String :=
  (((splitPunct text.data).map (fun f => stripChars f)).filter
    (fun f => decide (minLen ≤ f.length))).map (fun f => (⟨f⟩ : String))

/-! ### Definitions for the reflexivity analysis of the dynamic program -/

section ReflDefs

variable {α : Type} [DecidableEq α] [Inhabited α]

/-- Row `i` of the dynamic program on the pair `(l, l)` processes column
`j` exactly when this holds. -/
def selfHit (l : List α) (i j : Nat) : Prop :=
  i < l.length ∧ j ∈ b2j l (l.getD i default)

instance (l : List α) (i j : Nat) : Decidable (selfHit l i j) := by
  unfold selfHit
  infer_instance

/-- The `j2len` run value the dynamic program computes at `(i, j)` when
both sequences are `l`. -/
def diagCS (l : List α) : Nat → Nat → Nat
  | 0, j => if selfHit l 0 j then 1 else 0
  | i + 1, j =>
    if selfHit l (i + 1) j then (if j = 0 then 1 else diagCS l i (j - 1) + 1) else 0

/-- The `j2len` function in force before processing row `r`. -/
def prevRow (l : List α) (r : Nat) : Nat → Nat :=
  match r with
  | 0 => fun _ => 0
  | r' + 1 => fun j => diagCS l r' j

/-- What holds of the fold state after fully processing row `r` on the
pair `(l, l)`: the best block is diagonal, ends within the processed rows,
dominates every run value of the row, and the new `j2len` row is `diagCS`. -/
def RowOut (l : List α) (r : Nat) (res : (Nat → Nat) × Match) : Prop :=
  res.2.a = res.2.b ∧ res.2.a + res.2.size ≤ r + 1 ∧
  (∀ x ∈ b2j l (l.getD r default), diagCS l r x ≤ res.2.size) ∧
  (∀ x, res.1 x = if x ∈ b2j l (l.getD r default) then diagCS l r x else 0)

end ReflDefs

/-! ### Helper lemmas: similarity on empty sequences -/

section EmptyLemmas

variable {α : Type} [DecidableEq α] [Inhabited α]

theorem procRow_nil_right (a : List α) (blo bhi r : Nat) (st : (Nat → Nat) × Match) :
    procRow a ([] : List α) blo bhi st r = ((fun _ => 0), st.2) := rfl

theorem foldl_procRow_nil_right (a : List α) (blo bhi : Nat) :
    ∀ (rows : List Nat) (st : (Nat → Nat) × Match),
      ((rows.foldl (procRow a ([] : List α) blo bhi) st)).2 = st.2 := by
  intro rows
  induction rows with
  | nil => intro st; rfl
  | cons r rest ih =>
    intro st
    rw [List.foldl_cons, procRow_nil_right]
    exact ih _

theorem dpPhase_nil_right (a : List α) (alo ahi blo bhi : Nat) :
    dpPhase a ([] : List α) alo ahi blo bhi = ⟨alo, blo, 0⟩ := by
  unfold dpPhase
  exact foldl_procRow_nil_right a blo bhi _ _

omit [Inhabited α] in
/-- The forward extension loop stops at once when the `b`-side bound is
already reached. -/
theorem extendHiAux_stop (a b : List α) (ahi bhi : Nat) (p : α → Bool) (bi bj : Nat)
    (fuel size : Nat) (h : ¬ bj + size < bhi) :
    extendHiAux a b ahi bhi p bi bj fuel size = size := by
  cases fuel with
  | zero => rfl
  | succ f =>
    unfold extendHiAux
    rw [if_neg]
    intro hc
    exact h hc.2.1

omit [Inhabited α] in
theorem extendPhase_nil_b (a : List α) (n : Nat) (pred : α → Bool) :
    extendPhase a ([] : List α) 0 n 0 0 pred ⟨0, 0, 0⟩ = ⟨0, 0, 0⟩ := by
  unfold extendPhase extendHi
  show (⟨0, 0, extendHiAux a [] n 0 pred 0 0 (n - (0 + 0)) 0⟩ : Match) = ⟨0, 0, 0⟩
  rw [extendHiAux_stop _ _ _ _ _ _ _ _ _ (by omega)]

theorem flm_nil_right (a : List α) (n : Nat) :
    find_longest_match a ([] : List α) 0 n 0 0 = ⟨0, 0, 0⟩ := by
  unfold find_longest_match
  rw [dpPhase_nil_right, extendPhase_nil_b, extendPhase_nil_b]

theorem matchingBlocks_nil_right (a : List α) : matchingBlocks a [] = [] := by
  unfold matchingBlocks blocksAux
  simp only [List.length_nil]
  rw [flm_nil_right]
  rfl

theorem matchingBlocks_nil_left (b : List α) : matchingBlocks ([] : List α) b = [] := by
  unfold matchingBlocks blocksAux
  simp only [List.length_nil]
  have : find_longest_match ([] : List α) b 0 0 0 b.length = ⟨0, 0, 0⟩ := rfl
  rw [this]
  rfl

theorem similarity_nil_nil : similarity ([] : List α) [] = 1 := rfl

theorem similarity_nil_right (a : List α) (h : a ≠ []) : similarity a [] = 0 := by
  unfold similarity
  rw [matchingBlocks_nil_right]
  rw [if_neg (by simpa using h)]
  norm_num

theorem similarity_nil_left (b : List α) (h : b ≠ []) : similarity [] b = 0 := by
  unfold similarity
  rw [matchingBlocks_nil_left]
  rw [if_neg (by simpa using h)]
  norm_num

end EmptyLemmas

/-! ## Claim C1 -/

set_option maxRecDepth 100000

/-- C1: the claimed partition invariant of `match_clauses` fails on the
code.  On `clauses1 = ["abc", "xyz"]`, `clauses2 = ["xyz"]`, the clause
`"abc"` (index 0 of document 1) finds no match, while `"xyz"` (index 1)
matches; but `unmatched1` is computed against `range(len(matched_pairs))`,
so it returns the suffix `["xyz"]`: clause `"abc"` of document 1 appears in
neither a matched pair nor `unmatched1`, and `"xyz"` appears in both. -/
theorem c1_unmatchedA_partition_failure :
    match_clauses ["abc", "xyz"] ["xyz"] = ([("xyz", "xyz", 1)], ["xyz"], []) := by
  with_unfolding_all decide

/-! ## Claim C2 -/

/-- C2 counterexample: the Segmenter does not yield 2 clauses on scenario
document A.  The `第N条` recognizer finds only 2 spans, which does not clear
the `> 3` acceptance threshold, so the paragraph fallback returns the whole
text as a single clause. -/
theorem c2_segmenter_two_clauses_refuted :
    split_into_clauses textA = [textA] ∧ (split_into_clauses textA).length ≠ 2 := by
  constructor
  · with_unfolding_all decide
  · with_unfolding_all decide

/-- C2 amended: on the scenario documents the Segmenter yields one clause
each (the whole text), the Aligner matches that single pair 1↔1 with
similarity 11/13 (> 0.3), and the Classifier fires the `不得`/`可以`
indicator rule on the pair and returns Conflict (`"冲突"`). -/
theorem c2_scenario_single_clause_conflict :
    split_into_clauses textA = [textA] ∧
    split_into_clauses textB = [textB] ∧
    match_clauses (split_into_clauses textA) (split_into_clauses textB) =
      ([(textA, textB, 11 / 13)], [], []) ∧
    analyze_compliance textA textB =
      ("冲突", [conflictMsg "不得|禁止|严禁" "可以|允许|有权"], 11 / 13) := by
  refine ⟨?_, ?_, ?_, ?_⟩
  · with_unfolding_all decide
  · with_unfolding_all decide
  · with_unfolding_all decide
  · with_unfolding_all decide

/-! ## Claim C4 -/

/-- C4: if any conflict-indicator rule fires on a pair of clauses, the
verdict is `"冲突"` (Conflict) regardless of the similarity score, with all
triggered explanation strings attached and the score reported unchanged. -/
theorem c4_conflict_priority (clause1 clause2 : String)
    (h : conflictsOf clause1 clause2 ≠ []) :
    analyze_compliance clause1 clause2 =
      ("冲突", conflictsOf clause1 clause2, simStr clause1 clause2) := by
  unfold analyze_compliance
  simp only [h, if_pos, ne_eq, not_false_eq_true, if_true]

/-- C4 witness: the identical clauses `"不得可以"`/`"不得可以"` have
similarity exactly 1.0 and still yield Conflict, with both directions of
the prohibition/permission rule triggered. -/
theorem c4_conflict_priority_witness :
    conflictsOf "不得可以" "不得可以" ≠ [] ∧
    simStr "不得可以" "不得可以" = 1 ∧
    analyze_compliance "不得可以" "不得可以" =
      ("冲突", conflictsOf "不得可以" "不得可以", simStr "不得可以" "不得可以") :=
  ⟨by with_unfolding_all decide, by with_unfolding_all decide,
   c4_conflict_priority "不得可以" "不得可以" (by with_unfolding_all decide)⟩

/-! ## Claim C3 -/

/-- C3 counterexample: the similarity score is not symmetric.  On the
4-character sequences `"ABCB"` and `"BCAB"`, the greedy longest-block
choice (earliest block in the first sequence wins ties) picks `"AB"` in one
direction, blocking the better `"BC"`+`"B"` decomposition found in the
other direction: the scores are 1/2 and 3/4. -/
theorem c3_similarity_symmetry_refuted :
    simStr "ABCB" "BCAB" = 1 / 2 ∧ simStr "BCAB" "ABCB" = 3 / 4 ∧
    simStr "ABCB" "BCAB" ≠ simStr "BCAB" "ABCB" := by
  refine ⟨?_, ?_, ?_⟩
  · with_unfolding_all decide
  · with_unfolding_all decide
  · with_unfolding_all decide

/-- C3 amended: symmetry does hold whenever either input sequence is empty
(both orders score 0.0, or 1.0 when both are empty); for general sequences
the score is not symmetric, as the counterexample shows. -/
theorem c3_symmetry_on_empty (a b : List Char) (h : a = [] ∨ b = []) :
    similarity a b = similarity b a := by
  rcases h with rfl | rfl
  · cases b with
    | nil => rfl
    | cons c t =>
      rw [similarity_nil_left _ (List.cons_ne_nil c t),
        similarity_nil_right _ (List.cons_ne_nil c t)]
  · cases a with
    | nil => rfl
    | cons c t =>
      rw [similarity_nil_left _ (List.cons_ne_nil c t),
        similarity_nil_right _ (List.cons_ne_nil c t)]

/-- C3 amended witness: instantiation at `a = ['x']`, `b = []`. -/
theorem c3_symmetry_on_empty_witness :
    (['x'] = ([] : List Char) ∨ ([] : List Char) = []) ∧
    similarity ['x'] ([] : List Char) = similarity ([] : List Char) ['x'] :=
  ⟨Or.inr rfl, c3_symmetry_on_empty ['x'] [] (Or.inr rfl)⟩

/-! ## Claim C8 -/

/-- C8: the similarity score on degenerate inputs: both sequences empty
gives 1.0, exactly one empty gives 0.0 (and the score is a total function,
so no division fault can occur; the `T = 0` case is returned before the
division). -/
theorem c8_similarity_degenerate :
    similarity ([] : List Char) [] = 1 ∧
    ∀ a : List Char, a ≠ [] → similarity a [] = 0 ∧ similarity [] a = 0 :=
  ⟨similarity_nil_nil,
   fun a h => ⟨similarity_nil_right a h, similarity_nil_left a h⟩⟩

/-- C8 witness: instantiation at the one-element sequence `['x']`. -/
theorem c8_similarity_degenerate_witness :
    (['x'] : List Char) ≠ [] ∧
    similarity ['x'] ([] : List Char) = 0 ∧ similarity ([] : List Char) ['x'] = 0 :=
  ⟨by decide, (c8_similarity_degenerate.2 ['x'] (by decide)).1,
   (c8_similarity_degenerate.2 ['x'] (by decide)).2⟩

/-! ## Claim C9 -/

/-- Dropping a filter that keeps everything and projecting the values of an
enumeration returns the original list. -/
theorem filter_none_map_snd_enumFrom {β : Type} (l : List β) :
    ∀ s : Nat,
      ((List.enumFrom s l).filter (fun p => decide (p.1 ∉ ([] : List Nat)))).map
        (fun p => p.2) = l := by
  induction l with
  | nil => intro s; rfl
  | cons c t ih =>
    intro s
    simp only [List.enumFrom, List.filter_cons]
    rw [if_pos (by simp)]
    simp only [List.map_cons]
    rw [ih]

/-- The `enum` form of `filter_none_map_snd_enumFrom`. -/
theorem filter_none_map_snd_enum {β : Type} (l : List β) :
    (l.enum.filter (fun p => decide (p.1 ∉ ([] : List Nat)))).map (fun p => p.2) = l := by
  unfold List.enum
  exact filter_none_map_snd_enumFrom l 0

/-- A fold whose step ignores the element is constant. -/
theorem foldl_const_of_fixed {β γ : Type} (f : γ → β → γ) (hf : ∀ x c, f x c = x) :
    ∀ (l : List β) (x : γ), l.foldl f x = x := by
  intro l
  induction l with
  | nil => intro x; rfl
  | cons c t ih =>
    intro x
    rw [List.foldl_cons, hf]
    exact ih x

/-- C9: for empty document text the segmenter returns the empty clause
list rather than failing, and the aligner on an empty side returns no
matched pairs, an empty unmatched list for the empty side and the whole
other side as its unmatched list. -/
theorem c9_empty_inputs :
    split_into_clauses "" = [] ∧
    (∀ cs : List String, match_clauses [] cs = ([], [], cs)) ∧
    (∀ cs : List String, match_clauses cs [] = ([], cs, [])) := by
  refine ⟨by with_unfolding_all decide, ?_, ?_⟩
  · intro cs
    show (([] : List (String × String × ℚ)),
        (([] : List (Nat × String)).filter _).map _,
        (cs.enum.filter (fun p => decide (p.1 ∉ ([] : List Nat)))).map (fun p => p.2)) = _
    rw [filter_none_map_snd_enum]
    rfl
  · intro cs
    have hstep : ∀ (acc : List (String × String × ℚ) × List Nat) (c1 : String),
        commitStep [] acc c1 = acc := fun _ _ => rfl
    unfold match_clauses
    rw [foldl_const_of_fixed _ hstep]
    show (([] : List (String × String × ℚ)),
        (cs.enum.filter (fun p => decide (p.1 ∉ ([] : List Nat)))).map (fun p => p.2),
        (([] : List (Nat × String)).filter _).map _) = _
    rw [filter_none_map_snd_enum]
    rfl

/-! ## Claims C6 and C10: alignment bookkeeping lemmas -/

/-- Generic fold preservation. -/
theorem foldl_preserve {σ β : Type} {P : σ → Prop} {Q : β → Prop} (step : σ → β → σ)
    (hstep : ∀ st x, P st → Q x → P (step st x)) :
    ∀ (L : List β) (st : σ), (∀ x ∈ L, Q x) → P st → P (L.foldl step st) := by
  intro L
  induction L with
  | nil => intro st _ h; exact h
  | cons x t ih =>
    intro st hQ hP
    rw [List.foldl_cons]
    exact ih _ (fun y hy => hQ y (List.mem_cons_of_mem x hy))
      (hstep st x hP (hQ x (List.mem_cons_self x t)))

/-- Indices in an enumeration are bounded by start and length. -/
theorem mem_enumFrom_bounds {β : Type} (l : List β) :
    ∀ (s : Nat) (p : Nat × β), p ∈ List.enumFrom s l → s ≤ p.1 ∧ p.1 < s + l.length := by
  induction l with
  | nil => intro s p hp; cases hp
  | cons c t ih =>
    intro s p hp
    rcases List.mem_cons.mp hp with h | h
    · subst h; simp
    · have := ih (s + 1) p h
      constructor
      · omega
      · simpa [Nat.add_comm, Nat.add_assoc, Nat.add_left_comm] using this.2

/-- The committed best match of `matchStep` is an unused, in-range index of
document 2. -/
theorem matchStep_bound (used : List Nat) (c1 : String) (clauses2 : List String)
    (s : String) (j : Nat) (h : (matchStep used c1 clauses2).2 = some (s, j)) :
    j < clauses2.length ∧ j ∉ used := by
  unfold matchStep at h
  have main :
      ∀ (L : List (Nat × String)) (st : ℚ × Option (String × Nat)),
        (∀ p ∈ L, p.1 < clauses2.length) →
        (∀ s' j', st.2 = some (s', j') → j' < clauses2.length ∧ j' ∉ used) →
        ∀ s' j',
          (L.foldl
            (fun st jc =>
              if jc.1 ∈ used then st
              else
                let r := simStr c1 jc.2
                if st.1 < r then (r, some (jc.2, jc.1)) else st) st).2 = some (s', j') →
          j' < clauses2.length ∧ j' ∉ used := by
    intro L
    induction L with
    | nil => intro st _ hst s' j' h'; exact hst s' j' h'
    | cons x t ih =>
      intro st hQ hst s' j' h'
      rw [List.foldl_cons] at h'
      refine ih _ (fun y hy => hQ y (List.mem_cons_of_mem x hy)) ?_ s' j' h'
      intro s'' j'' hsome
      by_cases hu : x.1 ∈ used
      · rw [if_pos hu] at hsome
        exact hst s'' j'' hsome
      · rw [if_neg hu] at hsome
        by_cases hlt : st.1 < simStr c1 x.2
        · rw [if_pos hlt] at hsome
          injection hsome with hpair
          injection hpair with h1 h2
          subst h2
          exact ⟨(hQ x (List.mem_cons_self x t)), hu⟩
        · rw [if_neg hlt] at hsome
          exact hst s'' j'' hsome
  refine main clauses2.enum (3 / 10, none) ?_ (by intro s' j' h'; cases h') s j h
  intro p hp
  have := mem_enumFrom_bounds clauses2 0 p hp
  omega

theorem commitStep_inv (clauses2 : List String)
    (acc : List (String × String × ℚ) × List Nat) (c1 : String)
    (h : AlignInv clauses2 acc) : AlignInv clauses2 (commitStep clauses2 acc c1) := by
  rcases hb : (matchStep acc.2 c1 clauses2).2 with _ | ⟨s, j⟩
  · simpa only [commitStep, hb] using h
  · by_cases hs : s = ""
    · simpa only [commitStep, hb, if_pos hs] using h
    · simp only [commitStep, hb, if_neg hs]
      obtain ⟨hj, hju⟩ := matchStep_bound acc.2 c1 clauses2 s j hb
      obtain ⟨hlen, hnd, hbd⟩ := h
      refine ⟨?_, ?_, ?_⟩
      · simp [hlen]
      · rw [List.nodup_append]
        exact ⟨hnd, List.nodup_singleton j, by
          intro x hx hx'
          rw [List.mem_singleton] at hx'
          subst hx'
          exact hju hx⟩
      · intro u hu
        rcases List.mem_append.mp hu with h' | h'
        · exact hbd u h'
        · rw [List.mem_singleton] at h'
          subst h'
          exact hj

theorem foldl_commit_inv (clauses1 clauses2 : List String) :
    AlignInv clauses2 (clauses1.foldl (commitStep clauses2) ([], [])) := by
  refine foldl_preserve (Q := fun _ => True) (commitStep clauses2)
    (fun st x hP _ => commitStep_inv clauses2 st x hP) clauses1 ([], [])
    (fun _ _ => trivial) ?_
  exact ⟨rfl, List.nodup_nil, by intro u hu; cases hu⟩

/-- Each outer iteration commits at most one pair. -/
theorem foldl_commit_length_le (clauses2 : List String) :
    ∀ (l : List String) (acc : List (String × String × ℚ) × List Nat),
      (l.foldl (commitStep clauses2) acc).1.length ≤ acc.1.length + l.length := by
  intro l
  induction l with
  | nil => intro acc; simp
  | cons c t ih =>
    intro acc
    rw [List.foldl_cons]
    refine le_trans (ih _) ?_
    have hstep : (commitStep clauses2 acc c).1.length ≤ acc.1.length + 1 := by
      rcases hb : (matchStep acc.2 c clauses2).2 with _ | ⟨s, j⟩
      · simp only [commitStep, hb]
        omega
      · by_cases hs : s = ""
        · simp only [commitStep, hb, if_pos hs]
          omega
        · simp only [commitStep, hb, if_neg hs, List.length_append,
            List.length_singleton]
          omega
    simp only [List.length_cons]
    omega

/-- Membership in the first projections of an enumeration is an interval
test. -/
theorem mem_enumFrom_map_fst {γ : Type} (m : List γ) :
    ∀ (s x : Nat),
      x ∈ (List.enumFrom s m).map (fun q => q.1) ↔ s ≤ x ∧ x < s + m.length := by
  induction m with
  | nil => intro s x; simp
  | cons c t ih =>
    intro s x
    simp only [List.enumFrom, List.map_cons, List.mem_cons, ih (s + 1) x,
      List.length_cons]
    omega

/-- Filtering an enumeration by keeping the indices at least `k` and
projecting the values yields the `drop`. -/
theorem enumFrom_filter_ge_map_snd {β : Type} (l : List β) :
    ∀ (s k : Nat),
      ((List.enumFrom s l).filter (fun p => decide (¬ p.1 < k))).map (fun p => p.2)
        = l.drop (k - s) := by
  induction l with
  | nil => intro s k; simp
  | cons c t ih =>
    intro s k
    simp only [List.enumFrom, List.filter_cons]
    by_cases h : s < k
    · rw [if_neg (by simpa using h)]
      rw [ih (s + 1) k]
      have h1 : k - s = (k - (s + 1)) + 1 := by omega
      rw [h1]
      rfl
    · rw [if_pos (by simpa using h)]
      simp only [List.map_cons]
      rw [ih (s + 1) k]
      have h1 : k - s = 0 := by omega
      have h2 : k - (s + 1) = 0 := by omega
      rw [h1, h2]
      rfl

/-- The `unmatched1` expression of `match_clauses` is exactly the suffix of
`clauses1` past the first `matched.length` positions. -/
theorem unmatched1_eq_drop {β : Type} (matched : List β) (clauses1 : List String) :
    ((clauses1.enum.filter
      (fun p => decide (p.1 ∉ matched.enum.map (fun q => q.1)))).map (fun p => p.2))
      = clauses1.drop matched.length := by
  have hcong : (clauses1.enum.filter
      (fun p => decide (p.1 ∉ matched.enum.map (fun q => q.1))))
      = (clauses1.enum.filter (fun p => decide (¬ p.1 < matched.length))) := by
    apply List.filter_congr
    intro p _
    have : (p.1 ∉ matched.enum.map (fun q => q.1)) ↔ ¬ p.1 < matched.length := by
      rw [show matched.enum = List.enumFrom 0 matched from rfl]
      rw [mem_enumFrom_map_fst]
      omega
    simp only [decide_eq_decide]
    exact this
  rw [hcong]
  rw [show clauses1.enum = List.enumFrom 0 clauses1 from rfl]
  rw [enumFrom_filter_ge_map_snd, Nat.sub_zero]

/-- Filtering an enumeration on non-membership of the index has the same
length as filtering the index range. -/
theorem enumFrom_filter_notmem_length (used : List Nat) {β : Type} (l : List β) :
    ∀ s : Nat,
      ((List.enumFrom s l).filter (fun p => decide (p.1 ∉ used))).length
        = ((List.range' s l.length).filter (fun x => decide (x ∉ used))).length := by
  induction l with
  | nil => intro s; rfl
  | cons c t ih =>
    intro s
    show (List.filter _ ((s, c) :: List.enumFrom (s + 1) t)).length
      = (List.filter _ (s :: List.range' (s + 1) t.length)).length
    rw [List.filter_cons, List.filter_cons]
    by_cases h : decide (s ∉ used) = true
    · rw [if_pos h, if_pos h]
      simp only [List.length_cons]
      rw [ih (s + 1)]
    · rw [if_neg h, if_neg h]
      exact ih (s + 1)

/-- Counting the range indices outside a duplicate-free, in-range list of
used indices. -/
theorem range_filter_not_mem_length (n : Nat) :
    ∀ (used : List Nat), used.Nodup → (∀ u ∈ used, u < n) →
      ((List.range n).filter (fun j => decide (j ∉ used))).length = n - used.length := by
  intro used
  induction used with
  | nil =>
    intro _ _
    rw [List.filter_eq_self.mpr (by intro a _; simp)]
    simp
  | cons u us ih =>
    intro hnd hlt
    obtain ⟨hu_us, hnd_us⟩ := List.nodup_cons.mp hnd
    have hcong : (List.range n).filter (fun j => decide (j ∉ u :: us))
        = (List.range n).filter (fun j => decide (j ≠ u) && decide (j ∉ us)) := by
      apply List.filter_congr
      intro j _
      rw [show (decide (j ≠ u) && decide (j ∉ us)) = decide (j ≠ u ∧ j ∉ us) by simp]
      apply decide_eq_decide.mpr
      simp only [List.mem_cons]
      tauto
    rw [hcong, ← List.filter_filter]
    have hL := ih hnd_us (fun v hv => hlt v (List.mem_cons_of_mem u hv))
    have hLnd : ((List.range n).filter (fun j => decide (j ∉ us))).Nodup :=
      (List.nodup_range n).filter _
    have huL : u ∈ (List.range n).filter (fun j => decide (j ∉ us)) := by
      rw [List.mem_filter]
      exact ⟨List.mem_range.mpr (hlt u (List.mem_cons_self u us)),
        decide_eq_true hu_us⟩
    have herase : ((List.range n).filter (fun j => decide (j ∉ us))).filter
        (fun j => decide (j ≠ u))
        = ((List.range n).filter (fun j => decide (j ∉ us))).erase u := by
      rw [hLnd.erase_eq_filter u]
      apply List.filter_congr
      intro x _
      by_cases hxu : x = u <;> simp [hxu]
    rw [herase, List.length_erase_of_mem huL, hL]
    simp only [List.length_cons]
    omega

/-- The length of the `unmatched2` expression of `match_clauses`. -/
theorem unmatched2_length (clauses2 : List String) (used : List Nat)
    (hnd : used.Nodup) (hlt : ∀ u ∈ used, u < clauses2.length) :
    ((clauses2.enum.filter (fun p => decide (p.1 ∉ used))).map (fun p => p.2)).length
      = clauses2.length - used.length := by
  rw [List.length_map]
  rw [show clauses2.enum = List.enumFrom 0 clauses2 from rfl]
  rw [enumFrom_filter_notmem_length used clauses2 0]
  rw [show List.range' 0 clauses2.length = List.range clauses2.length from
    (List.range_eq_range' clauses2.length).symm]
  exact range_filter_not_mem_length clauses2.length used hnd hlt

/-- A duplicate-free list of naturals below `n` has at most `n` elements. -/
theorem nodup_bounded_length_le (n : Nat) (used : List Nat) (hnd : used.Nodup)
    (hlt : ∀ u ∈ used, u < n) : used.length ≤ n := by
  have h1 : used.toFinset.card = used.length := List.toFinset_card_of_nodup hnd
  have h2 : used.toFinset ⊆ Finset.range n := by
    intro x hx
    rw [List.mem_toFinset] at hx
    exact Finset.mem_range.mpr (hlt x hx)
  have h3 := Finset.card_le_card h2
  rw [h1, Finset.card_range] at h3
  exact h3

/-- The three components of `match_clauses`, spelled out. -/
theorem match_clauses_matched (c1 c2 : List String) :
    (match_clauses c1 c2).1 = (c1.foldl (commitStep c2) ([], [])).1 := rfl

theorem match_clauses_unmatched1 (c1 c2 : List String) :
    (match_clauses c1 c2).2.1
      = (c1.enum.filter (fun p => decide
          (p.1 ∉ (c1.foldl (commitStep c2) ([], [])).1.enum.map (fun q => q.1)))).map
        (fun p => p.2) := rfl

theorem match_clauses_unmatched2 (c1 c2 : List String) :
    (match_clauses c1 c2).2.2
      = (c2.enum.filter (fun p => decide
          (p.1 ∉ (c1.foldl (commitStep c2) ([], [])).2))).map (fun p => p.2) := rfl

/-- C6: the coverage cardinality equations of the aligner:
`|matched| + |unmatchedA| = |clauseSetA|` and
`|matched| + |unmatchedB| = |clauseSetB|`. -/
theorem c6_alignment_coverage (clauses1 clauses2 : List String) :
    (match_clauses clauses1 clauses2).1.length
        + (match_clauses clauses1 clauses2).2.1.length = clauses1.length ∧
    (match_clauses clauses1 clauses2).1.length
        + (match_clauses clauses1 clauses2).2.2.length = clauses2.length := by
  obtain ⟨hlen, hnd, hbd⟩ := foldl_commit_inv clauses1 clauses2
  have hk1 : (clauses1.foldl (commitStep clauses2) ([], [])).1.length
      ≤ clauses1.length := by
    simpa using foldl_commit_length_le clauses2 clauses1 ([], [])
  have hk2 : (clauses1.foldl (commitStep clauses2) ([], [])).2.length
      ≤ clauses2.length :=
    nodup_bounded_length_le clauses2.length _ hnd hbd
  rw [match_clauses_matched, match_clauses_unmatched1, match_clauses_unmatched2]
  constructor
  · rw [unmatched1_eq_drop, List.length_drop]
    omega
  · rw [unmatched2_length clauses2 _ hnd hbd]
    omega

/-- C10: `unmatchedA` is exactly the suffix of `clauseSetA` starting at the
index equal to the number of matched pairs — it depends only on how many
pairs were matched, not on which A-clauses were matched. -/
theorem c10_unmatchedA_suffix (clauses1 clauses2 : List String) :
    (match_clauses clauses1 clauses2).2.1
      = clauses1.drop (match_clauses clauses1 clauses2).1.length := by
  unfold match_clauses
  exact unmatched1_eq_drop _ clauses1

/-! ## Claim C5 -/

/-- C5 counterexample: on `"第一句。第二句。"` (two sentences, no
structural markers, no blank line) the code's fallback returns the whole
text as one clause, which no punctuation-splitting fallback produces for
any choice of the minimum length: splitting at `。` leaves fragments of
lengths 3, 3 and 0, so the spec-modelled fallback returns 3, 2 or 0
fragments, never 1. -/
theorem c5_punct_fallback_refuted :
    split_into_clauses "第一句。第二句。" = ["第一句。第二句。"] ∧
    ¬ ∃ minLen : Nat,
        split_into_clauses "第一句。第二句。"
          = specPunctFallback "第一句。第二句。" minLen := by
  have hcode : split_into_clauses "第一句。第二句。" = ["第一句。第二句。"] := by
    with_unfolding_all decide
  refine ⟨hcode, ?_⟩
  rintro ⟨m, hm⟩
  rw [hcode] at hm
  have hmap : (splitPunct "第一句。第二句。".data).map (fun f => stripChars f)
      = ["第一句".data, "第二句".data, []] := by
    with_unfolding_all decide
  have hlen1 : "第一句".data.length = 3 := by with_unfolding_all decide
  have hlen2 : "第二句".data.length = 3 := by with_unfolding_all decide
  unfold specPunctFallback at hm
  rw [hmap] at hm
  simp only [List.filter_cons, List.filter_nil, hlen1, hlen2, List.length_nil] at hm
  have hmlen := congrArg List.length hm
  by_cases h3 : m ≤ 3
  · by_cases h0 : m ≤ 0
    · rw [if_pos (decide_eq_true h3), if_pos (decide_eq_true h3),
        if_pos (decide_eq_true h0)] at hmlen
      simp at hmlen
    · rw [if_pos (decide_eq_true h3), if_pos (decide_eq_true h3),
        if_neg (by simpa using h0)] at hmlen
      simp at hmlen
  · have h0 : ¬ m ≤ 0 := by omega
    rw [if_neg (by simpa using h3), if_neg (by simpa using h3),
      if_neg (by simpa using h0)] at hmlen
    simp at hmlen

/-- No recognizer clearing the threshold makes the cascade fall through. -/
theorem tryRecognizers_none (t : String) :
    ∀ ms : List (List Char → Option Nat),
      (∀ m ∈ ms, (findall m t).length ≤ 3) → tryRecognizers ms t = none := by
  intro ms
  induction ms with
  | nil => intro _; rfl
  | cons m rest ih =>
    intro h
    unfold tryRecognizers
    rw [if_neg (by have := h m (List.mem_cons_self m rest); omega)]
    exact ih (fun m' hm' => h m' (List.mem_cons_of_mem m hm'))

/-- C5 amended: on every text where no recognizer yields more than 3 raw
spans, `split_into_clauses` falls back to splitting on blank lines
(`text.split('\n\n')`) and discards only the fragments that are empty after
trimming; there is no sentence-punctuation split and no minimum-length
filter. -/
theorem c5_paragraph_fallback (text : String)
    (h : ∀ m ∈ recognizers, (findall m text).length ≤ 3) :
    split_into_clauses text
      = ((pySplit ['\n', '\n'] text).map strip).filter (fun p => decide (p ≠ "")) := by
  unfold split_into_clauses
  rw [tryRecognizers_none text recognizers h]

/-- C5 amended witness: a two-paragraph text with no structural markers. -/
theorem c5_paragraph_fallback_witness :
    (∀ m ∈ recognizers, (findall m "第一句。\n\n第二句。").length ≤ 3) ∧
    split_into_clauses "第一句。\n\n第二句。"
      = ((pySplit ['\n', '\n'] "第一句。\n\n第二句。").map strip).filter
          (fun p => decide (p ≠ "")) :=
  ⟨by with_unfolding_all decide,
   c5_paragraph_fallback "第一句。\n\n第二句。" (by with_unfolding_all decide)⟩

/-! ## Claim C7: reflexivity of the similarity score -/

section ReflLemmas

variable {α : Type} [DecidableEq α] [Inhabited α]

omit [DecidableEq α] [Inhabited α] in
theorem takeWhile_all (p : α → Bool) :
    ∀ L : List α, (∀ x ∈ L, p x = true) → L.takeWhile p = L := by
  intro L
  induction L with
  | nil => intro _; rfl
  | cons c t ih =>
    intro h
    rw [List.takeWhile_cons, if_pos (h c (List.mem_cons_self c t))]
    rw [ih (fun x hx => h x (List.mem_cons_of_mem c hx))]

theorem mem_b2j_iff (b : List α) (x : α) (j : Nat) :
    j ∈ b2j b x ↔ isPopular b x = false ∧ j < b.length ∧ b.getD j default = x := by
  unfold b2j
  by_cases hp : isPopular b x
  · rw [if_pos hp]
    simp [hp]
  · rw [if_neg hp]
    rw [List.mem_filter, List.mem_range]
    simp only [decide_eq_true_eq]
    rw [Bool.not_eq_true] at hp
    tauto

theorem b2j_pairwise (b : List α) (x : α) : (b2j b x).Pairwise (· < ·) := by
  unfold b2j
  by_cases hp : isPopular b x
  · rw [if_pos hp]; exact List.Pairwise.nil
  · rw [if_neg hp]
    exact (List.pairwise_lt_range b.length).filter _

theorem mem_b2j_lt (b : List α) (x : α) (j : Nat) (h : j ∈ b2j b x) : j < b.length :=
  ((mem_b2j_iff b x j).mp h).2.1

/-- `selfHit` transfers to the diagonal position of the row. -/
theorem selfHit_row_diag {l : List α} {i j : Nat} (h : selfHit l i j) : selfHit l i i := by
  obtain ⟨hi, hj⟩ := h
  obtain ⟨hpop, hjl, hchar⟩ := (mem_b2j_iff _ _ _).mp hj
  exact ⟨hi, (mem_b2j_iff _ _ _).mpr ⟨hpop, hi, rfl⟩⟩

/-- `selfHit` transfers to the diagonal position of the column. -/
theorem selfHit_col_diag {l : List α} {i j : Nat} (h : selfHit l i j) : selfHit l j j := by
  obtain ⟨hi, hj⟩ := h
  obtain ⟨hpop, hjl, hchar⟩ := (mem_b2j_iff _ _ _).mp hj
  refine ⟨hjl, (mem_b2j_iff _ _ _).mpr ?_⟩
  rw [hchar]
  exact ⟨hpop, hjl, rfl⟩

/-- Equation for row 0 of `diagCS`. -/
theorem diagCS_zero (l : List α) (j : Nat) :
    diagCS l 0 j = if selfHit l 0 j then 1 else 0 := rfl

/-- Equation for successor rows of `diagCS`. -/
theorem diagCS_succ (l : List α) (i j : Nat) :
    diagCS l (i + 1) j
      = if selfHit l (i + 1) j then (if j = 0 then 1 else diagCS l i (j - 1) + 1)
        else 0 := rfl

/-- The diagonal run value is at most the row index plus one. -/
theorem diagCS_le (l : List α) : ∀ i j, diagCS l i j ≤ i + 1 := by
  intro i
  induction i with
  | zero =>
    intro j
    rw [diagCS_zero]
    by_cases h : selfHit l 0 j
    · rw [if_pos h]
    · rw [if_neg h]; omega
  | succ i ih =>
    intro j
    rw [diagCS_succ]
    by_cases h : selfHit l (i + 1) j
    · rw [if_pos h]
      by_cases hj : j = 0
      · rw [if_pos hj]; omega
      · rw [if_neg hj]
        have := ih (j - 1)
        omega
    · rw [if_neg h]; omega

/-- A diagonal hit gives a positive diagonal run. -/
theorem diagCS_diag_pos {l : List α} {j : Nat} (h : selfHit l j j) : 1 ≤ diagCS l j j := by
  cases j with
  | zero => rw [diagCS_zero, if_pos h]
  | succ j' =>
    rw [diagCS_succ, if_pos h, if_neg (Nat.succ_ne_zero j')]
    omega

/-- On a diagonal hit the run extends the previous diagonal value. -/
theorem diagCS_diag_succ {l : List α} {j : Nat} (h : selfHit l (j + 1) (j + 1)) :
    diagCS l (j + 1) (j + 1) = diagCS l j j + 1 := by
  rw [diagCS_succ, if_pos h, if_neg (Nat.succ_ne_zero j), Nat.add_sub_cancel]

/-- Row-diagonal dominance: within a row the diagonal value is maximal. -/
theorem diagCS_le_row_diag (l : List α) : ∀ i j, diagCS l i j ≤ diagCS l i i := by
  intro i
  induction i with
  | zero =>
    intro j
    by_cases h : selfHit l 0 j
    · have hd := selfHit_row_diag h
      rw [diagCS_zero, diagCS_zero, if_pos h, if_pos hd]
    · rw [diagCS_zero l j, if_neg h]
      omega
  | succ i ih =>
    intro j
    by_cases h : selfHit l (i + 1) j
    · have hd := selfHit_row_diag h
      rw [diagCS_diag_succ hd, diagCS_succ, if_pos h]
      by_cases hj : j = 0
      · rw [if_pos hj]; omega
      · rw [if_neg hj]
        have := ih (j - 1)
        omega
    · rw [diagCS_succ l i j, if_neg h]
      omega

/-- Column-diagonal dominance: any run value is at most the column's
diagonal value. -/
theorem diagCS_le_col_diag (l : List α) : ∀ i j, diagCS l i j ≤ diagCS l j j := by
  intro i
  induction i with
  | zero =>
    intro j
    by_cases h : selfHit l 0 j
    · have hd := selfHit_col_diag h
      have h1 : diagCS l 0 j = 1 := by rw [diagCS_zero, if_pos h]
      rw [h1]
      exact diagCS_diag_pos hd
    · have h0 : diagCS l 0 j = 0 := by rw [diagCS_zero, if_neg h]
      rw [h0]
      omega
  | succ i ih =>
    intro j
    by_cases h : selfHit l (i + 1) j
    · have hd := selfHit_col_diag h
      cases j with
      | zero =>
        have h1 : diagCS l (i + 1) 0 = 1 := by
          rw [diagCS_succ, if_pos h, if_pos rfl]
        rw [h1]
        exact diagCS_diag_pos hd
      | succ j' =>
        have h1 : diagCS l (i + 1) (j' + 1) = diagCS l i j' + 1 := by
          rw [diagCS_succ, if_pos h, if_neg (Nat.succ_ne_zero j'), Nat.add_sub_cancel]
        rw [h1, diagCS_diag_succ hd]
        have := ih j'
        omega
    · have h0 : diagCS l (i + 1) j = 0 := by
        rw [diagCS_succ, if_neg h]
      rw [h0]
      omega

/-- Without a hit the run value is zero. -/
theorem diagCS_eq_zero {l : List α} {i j : Nat} (h : ¬ selfHit l i j) :
    diagCS l i j = 0 := by
  cases i with
  | zero => rw [diagCS_zero, if_neg h]
  | succ i' => rw [diagCS_succ, if_neg h]

/-- The `k` value the fold computes at a hit is the diagonal run value. -/
theorem k_eq_diagCS {l : List α} {r j : Nat} (h : selfHit l r j) (old : Nat → Nat)
    (hold : ∀ x, old x = prevRow l r x) :
    (if j = 0 then 0 else old (j - 1)) + 1 = diagCS l r j := by
  cases r with
  | zero =>
    have h1 : diagCS l 0 j = 1 := by rw [diagCS_zero, if_pos h]
    rw [h1]
    by_cases hj : j = 0
    · rw [if_pos hj]
    · rw [if_neg hj, hold]
      rfl
  | succ r' =>
    by_cases hj : j = 0
    · subst hj
      have h1 : diagCS l (r' + 1) 0 = 1 := by
        rw [diagCS_succ, if_pos h, if_pos rfl]
      rw [h1, if_pos rfl]
    · have h1 : diagCS l (r' + 1) j = diagCS l r' (j - 1) + 1 := by
        rw [diagCS_succ, if_pos h, if_neg hj]
      rw [h1, if_neg hj, hold]
      rfl

/-- The inner fold of a row of the dynamic program on `(l, l)`: as long as
the incoming best block is diagonal and dominates all previously seen run
values, every update stays diagonal. -/
theorem rowFold_inv (l : List α) (r : Nat) (hr : r < l.length) (old : Nat → Nat)
    (hold : ∀ x, old x = prevRow l r x) :
    ∀ (rem : List Nat) (newF : Nat → Nat) (best : Match),
      rem.Pairwise (· < ·) →
      (∀ x ∈ rem, x ∈ b2j l (l.getD r default)) →
      (∀ x ∈ b2j l (l.getD r default), x ∉ rem → diagCS l r x ≤ best.size) →
      (∀ i' j', i' < r → diagCS l i' j' ≤ best.size) →
      best.a = best.b →
      best.a + best.size ≤ r + 1 →
      (∀ x, newF x
        = if x ∈ b2j l (l.getD r default) ∧ x ∉ rem then diagCS l r x else 0) →
      RowOut l r (rem.foldl (rowStep r old) (newF, best)) ∧
        best.size ≤ (rem.foldl (rowStep r old) (newF, best)).2.size := by
  intro rem
  induction rem with
  | nil =>
    intro newF best _ _ hsub hprev hdiag hbound hnew
    refine ⟨⟨hdiag, hbound, ?_, ?_⟩, le_refl _⟩
    · intro x hx
      exact hsub x hx (List.not_mem_nil x)
    · intro x
      show newF x = _
      rw [hnew x]
      by_cases hx : x ∈ b2j l (l.getD r default)
      · rw [if_pos ⟨hx, List.not_mem_nil x⟩, if_pos hx]
      · rw [if_neg (by tauto), if_neg hx]
  | cons j rem' ih =>
    intro newF best hpw hrem hsub hprev hdiag hbound hnew
    rw [List.foldl_cons]
    have hj : j ∈ b2j l (l.getD r default) := hrem j (List.mem_cons_self j rem')
    have hhit : selfHit l r j := ⟨hr, hj⟩
    have hk : (if j = 0 then 0 else old (j - 1)) + 1 = diagCS l r j :=
      k_eq_diagCS hhit old hold
    have hpw' : rem'.Pairwise (· < ·) := (List.pairwise_cons.mp hpw).2
    have hjlt : ∀ y ∈ rem', j < y := (List.pairwise_cons.mp hpw).1
    have hjnotm : j ∉ rem' := fun hmem => Nat.lt_irrefl j (hjlt j hmem)
    have hrem2 : ∀ x ∈ rem', x ∈ b2j l (l.getD r default) :=
      fun x hx => hrem x (List.mem_cons_of_mem j hx)
    have hnotmem : ∀ x : Nat, x ≠ j → x ∉ rem' → x ∉ j :: rem' := by
      intro x hxj hxr hmem
      rcases List.mem_cons.mp hmem with h' | h'
      · exact hxj h'
      · exact hxr h'
    have hnew2 : ∀ y : Nat, (if y = j then diagCS l r j else newF y)
        = if y ∈ b2j l (l.getD r default) ∧ y ∉ rem' then diagCS l r y else 0 := by
      intro y
      by_cases hyj : y = j
      · rw [if_pos hyj, hyj, if_pos ⟨hj, hjnotm⟩]
      · rw [if_neg hyj, hnew y]
        by_cases hymem : y ∈ b2j l (l.getD r default)
        · by_cases hyr : y ∉ rem'
          · rw [if_pos ⟨hymem, hnotmem y hyj hyr⟩, if_pos ⟨hymem, hyr⟩]
          · rw [if_neg (by tauto), if_neg (by tauto)]
        · rw [if_neg (by tauto), if_neg (by tauto)]
    have hstep : rowStep r old (newF, best) j
        = (fun x => if x = j then diagCS l r j else newF x,
           if best.size < diagCS l r j
           then ⟨r + 1 - diagCS l r j, j + 1 - diagCS l r j, diagCS l r j⟩
           else best) := by
      unfold rowStep
      rw [hk]
    rw [hstep]
    by_cases hup : best.size < diagCS l r j
    · -- an update fires: the column must be the diagonal one
      have hjr : j = r := by
        rcases Nat.lt_trichotomy j r with hlt | heq | hgt
        · have h1 := diagCS_le_col_diag l r j
          have h2 := hprev j j hlt
          omega
        · exact heq
        · have h1 := diagCS_le_row_diag l r j
          have hrj : r ∈ b2j l (l.getD r default) := (selfHit_row_diag hhit).2
          have hnr : r ∉ j :: rem' := by
            intro hmem
            rcases List.mem_cons.mp hmem with h' | h'
            · omega
            · exact Nat.lt_irrefl r (Nat.lt_trans hgt (hjlt r h'))
          have h2 := hsub r hrj hnr
          omega
      rw [if_pos hup]
      have hkle : diagCS l r j ≤ r + 1 := hjr ▸ diagCS_le l r j
      have hsub2 : ∀ x ∈ b2j l (l.getD r default), x ∉ rem' →
          diagCS l r x ≤ (⟨r + 1 - diagCS l r j, j + 1 - diagCS l r j,
            diagCS l r j⟩ : Match).size := by
        intro x hx hnx
        show diagCS l r x ≤ diagCS l r j
        by_cases hxj : x = j
        · rw [hxj]
        · exact le_trans (hsub x hx (hnotmem x hxj hnx)) (Nat.le_of_lt hup)
      have hprev2 : ∀ i' j', i' < r → diagCS l i' j'
          ≤ (⟨r + 1 - diagCS l r j, j + 1 - diagCS l r j,
            diagCS l r j⟩ : Match).size := by
        intro i' j' hi'
        exact le_trans (hprev i' j' hi') (Nat.le_of_lt hup)
      have hdiag2 : (⟨r + 1 - diagCS l r j, j + 1 - diagCS l r j,
          diagCS l r j⟩ : Match).a
          = (⟨r + 1 - diagCS l r j, j + 1 - diagCS l r j, diagCS l r j⟩ : Match).b := by
        show r + 1 - diagCS l r j = j + 1 - diagCS l r j
        rw [hjr]
      have hbound2 : (⟨r + 1 - diagCS l r j, j + 1 - diagCS l r j,
          diagCS l r j⟩ : Match).a
          + (⟨r + 1 - diagCS l r j, j + 1 - diagCS l r j, diagCS l r j⟩ : Match).size
          ≤ r + 1 := by
        show r + 1 - diagCS l r j + diagCS l r j ≤ r + 1
        omega
      obtain ⟨hout, hmono⟩ := ih
        (fun x => if x = j then diagCS l r j else newF x)
        ⟨r + 1 - diagCS l r j, j + 1 - diagCS l r j, diagCS l r j⟩
        hpw' hrem2 hsub2 hprev2 hdiag2 hbound2 hnew2
      refine ⟨hout, le_trans (Nat.le_of_lt hup) ?_⟩
      exact hmono
    · -- no update
      rw [if_neg hup]
      have hsub2 : ∀ x ∈ b2j l (l.getD r default), x ∉ rem' →
          diagCS l r x ≤ best.size := by
        intro x hx hnx
        by_cases hxj : x = j
        · rw [hxj]
          omega
        · exact hsub x hx (hnotmem x hxj hnx)
      exact ih (fun x => if x = j then diagCS l r j else newF x) best hpw'
        hrem2 hsub2 hprev hdiag hbound hnew2

/-- On the full window `[0, n) × [0, n)` the `continue`/`break` guards of a
row keep the whole `b2j` list. -/
theorem procRow_self (l : List α) (r : Nat) (old : Nat → Nat) (best : Match) :
    procRow l l 0 l.length (old, best) r
      = (b2j l (l.getD r default)).foldl (rowStep r old) ((fun _ => 0), best) := by
  unfold procRow
  rw [takeWhile_all _ _ (fun x hx => decide_eq_true (mem_b2j_lt l _ x hx))]
  rw [List.filter_eq_self.mpr (fun a _ => decide_eq_true (Nat.zero_le a))]

/-- The rows fold of the dynamic program on `(l, l)` keeps the best block
diagonal and within bounds. -/
theorem dpRows_inv (l : List α) :
    ∀ (t r : Nat) (old : Nat → Nat) (best : Match),
      r + t = l.length →
      (∀ x, old x = prevRow l r x) →
      best.a = best.b → best.a + best.size ≤ r →
      (∀ i' j', i' < r → diagCS l i' j' ≤ best.size) →
      ((List.range' r t).foldl (procRow l l 0 l.length) (old, best)).2.a
        = ((List.range' r t).foldl (procRow l l 0 l.length) (old, best)).2.b ∧
      ((List.range' r t).foldl (procRow l l 0 l.length) (old, best)).2.a
        + ((List.range' r t).foldl (procRow l l 0 l.length) (old, best)).2.size
        ≤ l.length := by
  intro t
  induction t with
  | zero =>
    intro r old best hrt hold hdiag hbound hprev
    rw [show List.range' r 0 = [] from rfl, List.foldl_nil]
    show best.a = best.b ∧ best.a + best.size ≤ l.length
    exact ⟨hdiag, by omega⟩
  | succ t ih =>
    intro r old best hrt hold hdiag hbound hprev
    have hr : r < l.length := by omega
    rw [show List.range' r (t + 1) = r :: List.range' (r + 1) t from rfl]
    rw [List.foldl_cons]
    rw [procRow_self l r old best]
    obtain ⟨⟨hdiag', hbound', hrowmax, hnewchar⟩, hmono⟩ :=
      rowFold_inv l r hr old hold (b2j l (l.getD r default)) (fun _ => 0) best
        (b2j_pairwise l _) (fun x hx => hx)
        (fun x hx hnx => absurd hx hnx)
        hprev hdiag (by omega)
        (by
          intro x
          rw [if_neg]
          tauto)
    exact ih (r + 1) _ _ (by omega)
      (by
        intro x
        rw [hnewchar x]
        show _ = diagCS l r x
        by_cases hx : x ∈ b2j l (l.getD r default)
        · rw [if_pos hx]
        · rw [if_neg hx, diagCS_eq_zero (fun hh => hx hh.2)])
      hdiag' (by omega)
      (by
        intro i' j' hi'
        by_cases hir : i' < r
        · exact le_trans (hprev i' j' hir) hmono
        · have hieq : i' = r := by omega
          subst hieq
          by_cases hx : j' ∈ b2j l (l.getD i' default)
          · exact hrowmax j' hx
          · rw [diagCS_eq_zero (fun hh => hx hh.2)]
            omega)

/-- The dynamic-programming phase on `(l, l)` over the full windows yields
a diagonal best block ending within the sequence. -/
theorem dpPhase_self (l : List α) :
    (dpPhase l l 0 l.length 0 l.length).a = (dpPhase l l 0 l.length 0 l.length).b ∧
    (dpPhase l l 0 l.length 0 l.length).a + (dpPhase l l 0 l.length 0 l.length).size
      ≤ l.length := by
  unfold dpPhase
  rw [Nat.sub_zero]
  exact dpRows_inv l l.length 0 (fun _ => 0) ⟨0, 0, 0⟩ (Nat.zero_add _)
    (fun x => rfl) rfl (Nat.le_refl 0) (fun i' j' hi' => absurd hi' (Nat.not_lt_zero i'))

omit [Inhabited α] in
/-- On identical sequences the extension-loop element test succeeds at any
in-range diagonal position (for an always-true junk gate). -/
theorem eqCheck_self (l : List α) (pred : α → Bool) (hpred : ∀ x, pred x = true)
    (i : Nat) (hi : i < l.length) : eqCheck l l pred i i = true := by
  unfold eqCheck
  rw [List.get?_eq_get hi]
  simp [hpred]

omit [Inhabited α] in
/-- On identical sequences the backward extension from a diagonal block
runs all the way to the start. -/
theorem extendLo_self (l : List α) (pred : α → Bool) (hpred : ∀ x, pred x = true) :
    ∀ d s : Nat, d + s ≤ l.length → extendLo l l 0 0 pred d d s = ⟨0, 0, d + s⟩ := by
  intro d
  induction d with
  | zero =>
    intro s _
    show (⟨0, 0, s⟩ : Match) = ⟨0, 0, 0 + s⟩
    rw [Nat.zero_add]
  | succ d ih =>
    intro s hle
    show (if 0 < d + 1 ∧ 0 < d + 1 ∧ eqCheck l l pred d (d + 1 - 1) = true
        then extendLo l l 0 0 pred d (d + 1 - 1) (s + 1)
        else ⟨d + 1, d + 1, s⟩) = ⟨0, 0, d + 1 + s⟩
    rw [if_pos ⟨Nat.succ_pos d, Nat.succ_pos d,
      eqCheck_self l pred hpred d (by omega)⟩]
    rw [show d + 1 - 1 = d from rfl]
    rw [ih (s + 1) (by omega)]
    have harith : d + (s + 1) = d + 1 + s := by omega
    rw [harith]

omit [Inhabited α] in
/-- On identical sequences the forward extension from the start runs to
the full length. -/
theorem extendHiAux_self (l : List α) (pred : α → Bool) (hpred : ∀ x, pred x = true) :
    ∀ fuel m : Nat, m + fuel = l.length →
      extendHiAux l l l.length l.length pred 0 0 fuel m = l.length := by
  intro fuel
  induction fuel with
  | zero =>
    intro m h
    show m = l.length
    omega
  | succ f ih =>
    intro m h
    show (if 0 + m < l.length ∧ 0 + m < l.length ∧
        eqCheck l l pred (0 + m) (0 + m) = true
        then extendHiAux l l l.length l.length pred 0 0 f (m + 1) else m) = l.length
    rw [if_pos ⟨by omega, by omega, eqCheck_self l pred hpred (0 + m) (by omega)⟩]
    exact ih (m + 1) (by omega)

omit [Inhabited α] in
/-- The non-junk extension phase turns any diagonal in-bounds block on
`(l, l)` into the full-length block. -/
theorem extendPhase_self (l : List α) (pred : α → Bool) (hpred : ∀ x, pred x = true)
    (m : Match) (hdiag : m.a = m.b) (hbound : m.a + m.size ≤ l.length) :
    extendPhase l l 0 l.length 0 l.length pred m = ⟨0, 0, l.length⟩ := by
  unfold extendPhase
  rw [← hdiag]
  rw [extendLo_self l pred hpred m.a m.size hbound]
  show (⟨0, 0, extendHi l l l.length l.length pred 0 0 (m.a + m.size)⟩ : Match) = _
  have h2 : extendHi l l l.length l.length pred 0 0 (m.a + m.size) = l.length := by
    unfold extendHi
    exact extendHiAux_self l pred hpred (l.length - (0 + (m.a + m.size)))
      (m.a + m.size) (by omega)
  rw [h2]

omit [Inhabited α] in
/-- Any extension phase leaves the full-length block unchanged. -/
theorem extendPhase_full (l : List α) (pred : α → Bool) :
    extendPhase l l 0 l.length 0 l.length pred ⟨0, 0, l.length⟩ = ⟨0, 0, l.length⟩ := by
  unfold extendPhase
  show (⟨0, 0, extendHi l l l.length l.length pred 0 0 l.length⟩ : Match) = _
  have h2 : extendHi l l l.length l.length pred 0 0 l.length = l.length := by
    unfold extendHi
    exact extendHiAux_stop l l l.length l.length pred 0 0 _ _ (by omega)
  rw [h2]

/-- `find_longest_match` on `(l, l)` over the full windows returns the
whole diagonal. -/
theorem flm_self (l : List α) :
    find_longest_match l l 0 l.length 0 l.length = ⟨0, 0, l.length⟩ := by
  obtain ⟨hdiag, hbound⟩ := dpPhase_self l
  unfold find_longest_match
  rw [extendPhase_self l (fun y => !bjunk y) (fun x => rfl) _ hdiag hbound]
  rw [extendPhase_full]

/-- `get_matching_blocks` on `(l, l)` is the single full-length diagonal
block. -/
theorem matchingBlocks_self (l : List α) (h : l ≠ []) :
    matchingBlocks l l = [⟨0, 0, l.length⟩] := by
  have hp : 0 < l.length := List.length_pos.mpr h
  show blocksAux l l (l.length + l.length + 1) 0 l.length 0 l.length = _
  have hrfl : blocksAux l l (l.length + l.length + 1) 0 l.length 0 l.length
      = (let m := find_longest_match l l 0 l.length 0 l.length
         if m.size = 0 then []
         else
           (if 0 < m.a ∧ 0 < m.b then
             blocksAux l l (l.length + l.length) 0 m.a 0 m.b else []) ++
           [m] ++
           (if m.a + m.size < l.length ∧ m.b + m.size < l.length then
             blocksAux l l (l.length + l.length) (m.a + m.size) l.length
               (m.b + m.size) l.length else [])) := rfl
  rw [hrfl, flm_self]
  show (if l.length = 0 then []
      else
        (if 0 < 0 ∧ 0 < 0 then
          blocksAux l l (l.length + l.length) 0 0 0 0 else []) ++
        [(⟨0, 0, l.length⟩ : Match)] ++
        (if 0 + l.length < l.length ∧ 0 + l.length < l.length then
          blocksAux l l (l.length + l.length) (0 + l.length) l.length
            (0 + l.length) l.length else [])) = _
  rw [if_neg (by omega), if_neg (by omega), if_neg (by omega)]
  rfl

/-- The similarity of any sequence with itself is 1. -/
theorem similarity_self (l : List α) : similarity l l = 1 := by
  rcases eq_or_ne l [] with rfl | h
  · rfl
  · have hp : 0 < l.length := List.length_pos.mpr h
    have hfold : ((matchingBlocks l l).foldl (fun acc bl => acc + bl.size) 0)
        = l.length := by
      rw [matchingBlocks_self l h]
      show 0 + l.length = l.length
      omega
    show (if l.length + l.length = 0 then (1 : ℚ)
      else (2 * (((matchingBlocks l l).foldl (fun acc bl => acc + bl.size) 0 : Nat) : ℚ))
        / ((l.length : ℚ) + (l.length : ℚ))) = 1
    rw [hfold, if_neg (by omega)]
    have hq : (0 : ℚ) < (l.length : ℚ) := by exact_mod_cast hp
    have hne : ((l.length : ℚ) + (l.length : ℚ)) ≠ 0 := by linarith
    rw [show (2 * ((l.length : Nat) : ℚ)) = ((l.length : ℚ) + (l.length : ℚ)) by ring]
    exact div_self hne

end ReflLemmas

/-- C7: the similarity score is reflexive: for every input sequence `a`,
`similarity a a = 1.0`.  The dynamic program's best block on `(a, a)` is
always diagonal, and the extension loops then stretch it over the whole
sequence, so the single matching block covers everything — this holds even
when autojunk prunes popular elements from the index. -/
theorem c7_similarity_reflexive : ∀ a : List Char, similarity a a = 1 :=
  fun a => similarity_self a

end PDFCompliance
